import Mathlib

/-!
Shallow embedding of the solard backlight daemon (`src/solard/__init__.py`,
with its legacy near-duplicate `src/acpi_als_daemon/acpi_als_daemon.py`).

Python floats are modelled as rationals (`ℚ`), raw device brightness values
as integers (`ℤ`).  Sysfs reads that can fail with `IOError` are modelled as
`Option` parameters; a Python call that raises is modelled by `Except`.
`math.log10` is kept abstract as a function parameter, since no claim
depends on its value.
-/

namespace Solard

/-- Python's built-in `max` over a non-empty list (`max(values)`); the `[]`
case is unreachable in the daemon, which never calls it on an empty buffer. -/
def pymax : List ℚ → ℚ
  | [] => 0
  | x :: xs => xs.foldl max x

/-- Python's built-in `min` over a non-empty list (`min(values)`). -/
def pymin : List ℚ → ℚ
  | [] => 0
  | x :: xs => xs.foldl min x

theorem foldl_max_mem (xs : List ℚ) (x : ℚ) : xs.foldl max x ∈ x :: xs := by
  induction xs generalizing x with
  | nil => simp
  | cons y ys ih =>
      have h := ih (max x y)
      rcases List.mem_cons.1 h with h' | h'
      · rcases max_choice x y with hm | hm <;> rw [List.foldl_cons, h', hm] <;> simp
      · simp [List.foldl_cons, List.mem_cons.2 (Or.inr (List.mem_cons.2 (Or.inr h')))]

theorem foldl_min_mem (xs : List ℚ) (x : ℚ) : xs.foldl min x ∈ x :: xs := by
  induction xs generalizing x with
  | nil => simp
  | cons y ys ih =>
      have h := ih (min x y)
      rcases List.mem_cons.1 h with h' | h'
      · rcases min_choice x y with hm | hm <;> rw [List.foldl_cons, h', hm] <;> simp
      · simp [List.foldl_cons, List.mem_cons.2 (Or.inr (List.mem_cons.2 (Or.inr h')))]

theorem pymax_mem {l : List ℚ} (h : l ≠ []) : pymax l ∈ l := by
  cases l with
  | nil => exact absurd rfl h
  | cons x xs => exact foldl_max_mem xs x

theorem pymin_mem {l : List ℚ} (h : l ≠ []) : pymin l ∈ l := by
  cases l with
  | nil => exact absurd rfl h
  | cons x xs => exact foldl_min_mem xs x

theorem le_foldl_max_init (xs : List ℚ) (x : ℚ) : x ≤ xs.foldl max x := by
  induction xs generalizing x with
  | nil => exact le_refl x
  | cons z zs ih => exact le_trans (le_max_left x z) (ih (max x z))

theorem foldl_min_init_le (xs : List ℚ) (x : ℚ) : xs.foldl min x ≤ x := by
  induction xs generalizing x with
  | nil => exact le_refl x
  | cons z zs ih => exact le_trans (ih (min x z)) (min_le_left x z)

theorem le_foldl_max_of_mem {xs : List ℚ} {y : ℚ} (x : ℚ) (h : y ∈ xs) :
    y ≤ xs.foldl max x := by
  induction xs generalizing x with
  | nil => exact absurd h (List.not_mem_nil y)
  | cons z zs ih =>
      rw [List.foldl_cons]
      rcases List.mem_cons.1 h with h' | h'
      · subst h'
        exact le_trans (le_max_right x y) (le_foldl_max_init zs (max x y))
      · exact ih (max x z) h'

theorem foldl_min_le_of_mem {xs : List ℚ} {y : ℚ} (x : ℚ) (h : y ∈ xs) :
    xs.foldl min x ≤ y := by
  induction xs generalizing x with
  | nil => exact absurd h (List.not_mem_nil y)
  | cons z zs ih =>
      rw [List.foldl_cons]
      rcases List.mem_cons.1 h with h' | h'
      · subst h'
        exact le_trans (foldl_min_init_le zs (min x y)) (min_le_right x y)
      · exact ih (min x z) h'

theorem le_pymax {l : List ℚ} {y : ℚ} (h : y ∈ l) : y ≤ pymax l := by
  cases l with
  | nil => exact absurd h (List.not_mem_nil y)
  | cons x xs =>
      rcases List.mem_cons.1 h with h' | h'
      · exact h' ▸ le_foldl_max_init xs x
      · exact le_foldl_max_of_mem x h'

theorem pymin_le {l : List ℚ} {y : ℚ} (h : y ∈ l) : pymin l ≤ y := by
  cases l with
  | nil => exact absurd h (List.not_mem_nil y)
  | cons x xs =>
      rcases List.mem_cons.1 h with h' | h'
      · exact h' ▸ foldl_min_init_le xs x
      · exact foldl_min_le_of_mem x h'

/-- Body of `Daemon.update_ambient_light_tendency` (lines 234-238), purely on the
buffer contents: `values = list(...)`; `if len(values) >= 3:
values.remove(max(values)); values.remove(min(values))`; result
`sum(values) / len(values)`.  `List.erase` drops the first occurrence,
exactly like Python's `list.remove`, and the inner `min(values)` is taken on
the list after the maximum was removed, as in the source. -/
def tendency_of (values : List ℚ) : ℚ :=
  let vs := if 3 ≤ values.length then
      (values.erase (pymax values)).erase (pymin (values.erase (pymax values)))
    else values
  vs.sum / (vs.length : ℚ)

theorem erase_pymax_ne_nil {l : List ℚ} (h : 3 ≤ l.length) :
    l.erase (pymax l) ≠ [] := by
  have hne : l ≠ [] := by
    intro hnil; rw [hnil] at h; simp at h
  have hlen := List.length_erase_of_mem (pymax_mem hne)
  have : 0 < (l.erase (pymax l)).length := by omega
  exact List.length_pos.1 this

theorem pymin_erase_pymax {l : List ℚ} (h : 3 ≤ l.length) :
    pymin (l.erase (pymax l)) = pymin l := by
  have hne : l ≠ [] := by
    intro hnil; rw [hnil] at h; simp at h
  have h1 : pymin (l.erase (pymax l)) ∈ l :=
    List.erase_subset _ _ (pymin_mem (erase_pymax_ne_nil h))
  have hge : pymin l ≤ pymin (l.erase (pymax l)) := pymin_le h1
  have hle : pymin (l.erase (pymax l)) ≤ pymin l := by
    by_cases hmm : pymin l = pymax l
    · calc pymin (l.erase (pymax l)) ≤ pymax l := le_pymax h1
        _ = pymin l := hmm.symm
    · have : pymin l ∈ l.erase (pymax l) :=
        (List.mem_erase_of_ne hmm).2 (pymin_mem hne)
      exact pymin_le this
  exact le_antisymm hle hge

theorem pymin_mem_erase_pymax {l : List ℚ} (h : 3 ≤ l.length) :
    pymin l ∈ l.erase (pymax l) := by
  rw [← pymin_erase_pymax h]
  exact pymin_mem (erase_pymax_ne_nil h)

/-- C2: `tendency_of` is the plain mean below 3 samples; from 3 samples on it
is the mean after erasing exactly one occurrence of the maximum and one
occurrence of the minimum of the original buffer (so the trimmed list has
exactly `length - 2` elements, also under ties); the buffer `[10, 20, 90]`
yields tendency `20`. -/
theorem tendency_trimmed_mean (l : List ℚ) :
    (l.length < 3 → tendency_of l = l.sum / (l.length : ℚ)) ∧
    (3 ≤ l.length →
      tendency_of l =
        ((l.erase (pymax l)).erase (pymin l)).sum /
          (((l.erase (pymax l)).erase (pymin l)).length : ℚ) ∧
      ((l.erase (pymax l)).erase (pymin l)).length = l.length - 2) ∧
    tendency_of [10, 20, 90] = 20 := by
  refine ⟨?_, ?_, ?_⟩
  · intro h
    rw [tendency_of]
    simp only [if_neg (by omega : ¬ 3 ≤ l.length)]
  · intro h
    constructor
    · rw [tendency_of]
      simp only [if_pos h, pymin_erase_pymax h]
    · have hne : l ≠ [] := by
        intro hnil; rw [hnil] at h; simp at h
      have h1 := List.length_erase_of_mem (pymax_mem hne)
      have h2 := List.length_erase_of_mem (pymin_mem_erase_pymax h)
      omega
  · norm_num [tendency_of, pymax, pymin]

theorem tendency_trimmed_mean_w :
    3 ≤ ([10, 20, 90] : List ℚ).length ∧
      tendency_of [10, 20, 90] =
        ((([10, 20, 90] : List ℚ).erase (pymax [10, 20, 90])).erase
            (pymin [10, 20, 90])).sum /
          (((([10, 20, 90] : List ℚ).erase (pymax [10, 20, 90])).erase
              (pymin [10, 20, 90])).length : ℚ) :=
  ⟨by decide, ((tendency_trimmed_mean [10, 20, 90]).2.1 (by decide)).1⟩

/-- Python `collections.deque(maxlen=...)` with `append`: the new element goes to
the right; when the result would exceed `maxlen`, elements are discarded
from the left. -/
def deque_append (maxlen : Nat) (xs : List ℚ) (x : ℚ) : List ℚ :=
  let ys := xs ++ [x]
  if maxlen < ys.length then ys.drop (ys.length - maxlen) else ys

theorem deque_append_getLastD (maxlen : Nat) (xs : List ℚ) (x : ℚ)
    (h : 1 ≤ maxlen) : (deque_append maxlen xs x).getLastD 0 = x := by
  rw [deque_append]
  have hys : (xs ++ [x]).getLast? = some x := List.getLast?_concat xs
  have hlen : 1 ≤ (xs ++ [x]).length := by simp
  by_cases hc : maxlen < (xs ++ [x]).length
  · simp only [if_pos hc, List.getLastD_eq_getLast?, List.getLast?_drop]
    rw [if_neg (by omega), hys]
    rfl
  · simp only [if_neg hc, List.getLastD_eq_getLast?, hys]
    rfl

/-- The mutable daemon attributes touched by the steady-`Used` branch of
`Daemon.event_detection_thread` and by `update_ambient_light_tendency`. -/
structure UsedState where
  ambient_light_values : List ℚ
  ambient_light_last : ℚ
  ambient_light_current : ℚ
  deriving Repr, DecidableEq

/-- Model of `Daemon.update_ambient_light_tendency` (lines 231-240): append the fresh
`get_ambient_light()` sample (passed in as `sample`) to the bounded deque and
recompute `ambient_light_current` as the trimmed mean. -/
def update_ambient_light_tendency (maxlen : Nat) (sample : ℚ)
    (s : UsedState) : UsedState :=
  let buf := deque_append maxlen s.ambient_light_values sample
  { s with ambient_light_values := buf, ambient_light_current := tendency_of buf }

/-- Steady-`Used` branch of `Daemon.event_detection_thread` (lines 219-229),
after the outside-change detector (line 220, modelled separately) found no
divergence: refresh the tendency, and if
`abs(ambient_light_current - ambient_light_last) > ambient_light_delta_update`
publish `brightnesses_set(values[-1], values[-1])` and set
`ambient_light_last = values[-1]`.  The second component is the published
target, `none` when nothing is published. -/
def steady_used_tick (maxlen : Nat) (delta sample : ℚ) (s : UsedState) :
    UsedState × Option (ℚ × ℚ) :=
  let s1 := update_ambient_light_tendency maxlen sample s
  if delta < |s1.ambient_light_current - s1.ambient_light_last| then
    ({ s1 with ambient_light_last := s1.ambient_light_values.getLastD 0 },
      some (s1.ambient_light_values.getLastD 0, s1.ambient_light_values.getLastD 0))
  else (s1, none)

/-- C1 counterexample: from buffer `[10, 20]`, last committed `10`, delta
threshold `3`, a fresh sample `90` gives tendency `20`, which differs from
the last committed value by more than the threshold — but the tick publishes
`(90, 90)` (the newest raw sample) and commits `90`, not the tendency `20`
as the claim states. -/
theorem steady_used_tick_cex :
    (update_ambient_light_tendency 5 90
        ⟨[10, 20], 10, 15⟩).ambient_light_current = 20 ∧
    (3 : ℚ) < |(update_ambient_light_tendency 5 90
        ⟨[10, 20], 10, 15⟩).ambient_light_current -
      (update_ambient_light_tendency 5 90
        ⟨[10, 20], 10, 15⟩).ambient_light_last| ∧
    (steady_used_tick 5 3 90 ⟨[10, 20], 10, 15⟩).2 = some (90, 90) ∧
    (steady_used_tick 5 3 90 ⟨[10, 20], 10, 15⟩).1.ambient_light_last = 90 ∧
    (90 : ℚ) ≠ 20 := by
  refine ⟨?_, ?_, ?_, ?_, by norm_num⟩ <;>
    norm_num [steady_used_tick, update_ambient_light_tendency, deque_append,
      tendency_of, pymax, pymin]

/-- C1 (amended): in the steady `Used` state, when the refreshed tendency
differs from the last committed percentage by strictly more than the delta
threshold, the tick publishes the *newest raw sample* (the one just
appended, `values[-1]`) for both screen and keyboard and commits that sample
as `ambient_light_last`; otherwise it publishes nothing and leaves the state
exactly as the tendency refresh produced it, `ambient_light_last` unchanged. -/
theorem steady_used_tick_spec (maxlen : Nat) (delta sample : ℚ)
    (s : UsedState) (h : 1 ≤ maxlen) :
    (update_ambient_light_tendency maxlen sample s).ambient_light_last =
      s.ambient_light_last ∧
    (delta < |(update_ambient_light_tendency maxlen sample s).ambient_light_current -
        (update_ambient_light_tendency maxlen sample s).ambient_light_last| →
      steady_used_tick maxlen delta sample s =
        ({ update_ambient_light_tendency maxlen sample s with
            ambient_light_last := sample }, some (sample, sample))) ∧
    (¬ delta < |(update_ambient_light_tendency maxlen sample s).ambient_light_current -
        (update_ambient_light_tendency maxlen sample s).ambient_light_last| →
      steady_used_tick maxlen delta sample s =
        (update_ambient_light_tendency maxlen sample s, none)) := by
  have hlast : (update_ambient_light_tendency maxlen sample
      s).ambient_light_values.getLastD 0 = sample := by
    rw [update_ambient_light_tendency]
    exact deque_append_getLastD maxlen s.ambient_light_values sample h
  refine ⟨rfl, ?_, ?_⟩
  · intro hgt
    rw [steady_used_tick, if_pos hgt, hlast]
  · intro hle
    rw [steady_used_tick, if_neg hle]

theorem steady_used_tick_spec_w :
    1 ≤ 5 ∧
      steady_used_tick 5 3 90 ⟨[10, 20], 10, 15⟩ =
        ({ update_ambient_light_tendency 5 90 ⟨[10, 20], 10, 15⟩ with
            ambient_light_last := 90 }, some (90, 90)) :=
  ⟨by omega,
    (steady_used_tick_spec 5 3 90 ⟨[10, 20], 10, 15⟩ (by omega)).2.1 (by
      norm_num [update_ambient_light_tendency, deque_append, tendency_of,
        pymax, pymin])⟩

/-- Model of `Daemon.get_ambient_light` (lines 307-329).  `read = none` models the
`IOError` branch (lines 314-317: `raw, normalized = None, 100`),
`read = some raw` the successful read.  `log10` abstracts `math.log10` (its
value is irrelevant to the claims), `factor` is
`conf.ambient_light_factor`, `smin` is `conf.screen_brightness_min`. -/
def get_ambient_light (factor smin : ℚ) (log10 : ℤ → ℚ)
    (read : Option ℤ) : ℚ :=
  let normalized : ℚ :=
    match read with
    | none => 100
    | some raw => if 0 < raw then min (log10 raw / factor * 100) 100 else 0
  if normalized < smin then smin else normalized

/-- A generous formalisation of §7's "neutral mid-range percent": a value in
the middle half of the 0-100 scale. -/
def midrange (v : ℚ) : Prop := 25 ≤ v ∧ v ≤ 75

/-- C6 counterexample: on a failed sensor read (with the default
configuration `factor = 5.5`, `screen_brightness_min = 5`) the substituted
sample is `100`, the very top of the percent scale — not a mid-range value. -/
theorem get_ambient_light_fallback_cex :
    get_ambient_light (11 / 2) 5 (fun _ => 0) none = 100 ∧
      ¬ midrange 100 := by
  constructor
  · norm_num [get_ambient_light]
  · rw [midrange]
    norm_num

/-- C6 (amended): whenever reading the ambient-light sensor fails with an
I/O error, `get_ambient_light` does not propagate the error; it substitutes
`100` — the maximum of the percent scale — and, as long as
`screen_brightness_min ≤ 100`, returns exactly `100`. -/
theorem get_ambient_light_fallback (factor smin : ℚ) (log10 : ℤ → ℚ)
    (h : smin ≤ 100) :
    get_ambient_light factor smin log10 none = 100 := by
  rw [get_ambient_light]
  exact if_neg (not_lt.2 h)

theorem get_ambient_light_fallback_w :
    (5 : ℚ) ≤ 100 ∧ get_ambient_light (11 / 2) 5 (fun _ => 0) none = 100 :=
  ⟨by norm_num, get_ambient_light_fallback (11 / 2) 5 (fun _ => 0) (by norm_num)⟩

theorem mean_bounds (l : List ℚ) (lo hi : ℚ) (hne : l ≠ [])
    (h : ∀ x ∈ l, lo ≤ x ∧ x ≤ hi) :
    lo ≤ l.sum / (l.length : ℚ) ∧ l.sum / (l.length : ℚ) ≤ hi := by
  have hpos : 0 < (l.length : ℚ) := by
    exact_mod_cast List.length_pos.2 hne
  have h1 : l.length • lo ≤ l.sum :=
    List.card_nsmul_le_sum l lo fun x hx => (h x hx).1
  have h2 : l.sum ≤ l.length • hi :=
    List.sum_le_card_nsmul l hi fun x hx => (h x hx).2
  rw [nsmul_eq_mul] at h1 h2
  constructor
  · rw [le_div_iff₀ hpos]
    linarith
  · rw [div_le_iff₀ hpos]
    linarith

theorem tendency_of_bounds (l : List ℚ) (lo hi : ℚ) (hne : l ≠ [])
    (h : ∀ x ∈ l, lo ≤ x ∧ x ≤ hi) :
    lo ≤ tendency_of l ∧ tendency_of l ≤ hi := by
  rw [tendency_of]
  by_cases h3 : 3 ≤ l.length
  · simp only [if_pos h3]
    have hsub : (l.erase (pymax l)).erase
        (pymin (l.erase (pymax l))) ⊆ l := fun x hx =>
      List.erase_subset _ _ (List.erase_subset _ _ hx)
    have hlne : l ≠ [] := by
      intro hnil; rw [hnil] at h3; simp at h3
    have hvne : (l.erase (pymax l)).erase
        (pymin (l.erase (pymax l))) ≠ [] := by
      have h1 := List.length_erase_of_mem (pymax_mem hlne)
      have h2 := List.length_erase_of_mem (pymin_mem (erase_pymax_ne_nil h3))
      apply List.length_pos.1
      omega
    exact mean_bounds _ lo hi hvne fun x hx => h x (hsub hx)
  · simp only [if_neg h3]
    exact mean_bounds l lo hi hne h

/-- C10: if `0 ≤ screen_brightness_min ≤ 100` then every value returned by
`get_ambient_light` — successful read with positive raw, with non-positive
raw, and the I/O-failure fallback alike — lies in
`[screen_brightness_min, 100]`; consequently a tendency computed from a
non-empty buffer of such samples lies in the same interval (in particular it
respects the configured minimum floor). -/
theorem get_ambient_light_in_range (factor smin : ℚ) (log10 : ℤ → ℚ)
    (h0 : 0 ≤ smin) (h100 : smin ≤ 100) :
    (∀ read : Option ℤ,
      smin ≤ get_ambient_light factor smin log10 read ∧
      get_ambient_light factor smin log10 read ≤ 100) ∧
    (∀ l : List ℚ, l ≠ [] → (∀ x ∈ l, smin ≤ x ∧ x ≤ 100) →
      smin ≤ tendency_of l ∧ tendency_of l ≤ 100) := by
  constructor
  · intro read
    rcases read with _ | raw
    · simp only [get_ambient_light]
      split_ifs with hc
      · exact ⟨le_refl smin, h100⟩
      · exact ⟨not_lt.1 hc, le_refl 100⟩
    · simp only [get_ambient_light]
      split_ifs with hraw hc hc
      · exact ⟨le_refl smin, h100⟩
      · exact ⟨not_lt.1 hc, min_le_right _ _⟩
      · exact ⟨le_refl smin, h100⟩
      · exact ⟨not_lt.1 hc, by linarith⟩
  · intro l hne h
    exact tendency_of_bounds l smin 100 hne h

theorem get_ambient_light_in_range_w :
    (0 : ℚ) ≤ 5 ∧ (5 : ℚ) ≤ 100 ∧
      5 ≤ get_ambient_light (11 / 2) 5 (fun _ => 0) (some 0) ∧
      get_ambient_light (11 / 2) 5 (fun _ => 0) (some 0) ≤ 100 :=
  ⟨by norm_num, by norm_num,
    (get_ambient_light_in_range (11 / 2) 5 (fun _ => 0) (by norm_num)
      (by norm_num)).1 (some 0)⟩

/-- The interval-doubling loop of `Daemon.fade_screen_brightness`
(lines 392-396): `while interval < 0.005: interval *= 2; step *= 2`
(0.005 s = 1/200).  For `interval ≤ 0` the Python loop never exits, so the
model's guard carries `0 < interval` to mark the terminating domain; in the
daemon `interval = abs(screen_brightness_time / diff)` is positive whenever
the configured fade duration is. -/
def dbl_loop (interval : ℚ) (step : ℤ) : ℚ × ℤ :=
  if h : 0 < interval ∧ interval < 1 / 200 then
    dbl_loop (interval * 2) (step * 2)
  else (interval, step)
termination_by (⌈(1 / 200 : ℚ) / interval⌉).toNat
decreasing_by
  obtain ⟨hi, hlt⟩ := h
  have hx1 : 1 < (1 / 200 : ℚ) / interval := (one_lt_div hi).2 hlt
  have hn2 : 2 ≤ ⌈(1 / 200 : ℚ) / interval⌉ := by
    have h1 : (1 : ℤ) < ⌈(1 / 200 : ℚ) / interval⌉ := Int.lt_ceil.2 (by push_cast; exact hx1)
    omega
  have hub : (1 / 200 : ℚ) / interval ≤ (⌈(1 / 200 : ℚ) / interval⌉ : ℚ) := Int.le_ceil _
  have hkey : ⌈(1 / 200 : ℚ) / (interval * 2)⌉ ≤ ⌈(1 / 200 : ℚ) / interval⌉ - 1 := by
    rw [div_mul_eq_div_div]
    apply Int.ceil_le.2
    have hn2q : (2 : ℚ) ≤ (⌈(1 / 200 : ℚ) / interval⌉ : ℚ) := by exact_mod_cast hn2
    push_cast
    linarith
  omega

theorem dbl_loop_result (i : ℚ) (s : ℤ) :
    0 < i → ∃ k : ℕ, dbl_loop i s = (i * 2 ^ k, s * 2 ^ k) ∧ 1 / 200 ≤ i * 2 ^ k := by
  induction i, s using dbl_loop.induct with
  | case1 i s h ih =>
      intro _
      obtain ⟨k, hk, hge⟩ := ih (by linarith [h.1])
      refine ⟨k + 1, ?_, ?_⟩
      · rw [dbl_loop, dif_pos h, hk]
        refine Prod.ext ?_ ?_ <;> simp <;> ring
      · calc (1 / 200 : ℚ) ≤ i * 2 * 2 ^ k := hge
          _ = i * 2 ^ (k + 1) := by ring
  | case2 i s h =>
      intro hi
      refine ⟨0, ?_, ?_⟩
      · rw [dbl_loop, dif_neg h]
        simp
      · have h1 : ¬ i < 1 / 200 := fun hlt => h ⟨hi, hlt⟩
        simpa using not_lt.1 h1

/-- C4: for every fade duration `T > 0` and every nonzero raw difference
`diff`, the doubling loop started at `interval = |T / diff|`, `step =
sign diff` terminates after finitely many doublings, and the interval it
returns is at least 5 ms (1/200 s). -/
theorem fade_interval_at_least_5ms (T : ℚ) (diff : ℤ) (hT : 0 < T)
    (hd : diff ≠ 0) :
    ∃ k : ℕ,
      dbl_loop |T / (diff : ℚ)| diff.sign =
        (|T / (diff : ℚ)| * 2 ^ k, diff.sign * 2 ^ k) ∧
      (1 / 200 : ℚ) ≤ (dbl_loop |T / (diff : ℚ)| diff.sign).1 := by
  have hdq : ((diff : ℚ)) ≠ 0 := by exact_mod_cast hd
  have hpos : 0 < |T / (diff : ℚ)| :=
    abs_pos.2 (div_ne_zero (ne_of_gt hT) hdq)
  obtain ⟨k, hk, hge⟩ := dbl_loop_result _ diff.sign hpos
  refine ⟨k, hk, ?_⟩
  rw [hk]
  exact hge

theorem fade_interval_at_least_5ms_w :
    (0 : ℚ) < 1 / 1000 ∧ (1 : ℤ) ≠ 0 ∧
      ∃ k : ℕ,
        dbl_loop |(1 / 1000 : ℚ) / ((1 : ℤ) : ℚ)| (1 : ℤ).sign =
          (|(1 / 1000 : ℚ) / ((1 : ℤ) : ℚ)| * 2 ^ k, (1 : ℤ).sign * 2 ^ k) ∧
        (1 / 200 : ℚ) ≤ (dbl_loop |(1 / 1000 : ℚ) / ((1 : ℤ) : ℚ)| (1 : ℤ).sign).1 :=
  ⟨by norm_num, by norm_num,
    fade_interval_at_least_5ms (1 / 1000) 1 (by norm_num) (by norm_num)⟩

theorem mem_of_mem_getLast?' {α : Type} {l : List α} {x : α}
    (h : x ∈ l.getLast?) : x ∈ l := by
  obtain ⟨hne, rfl⟩ := List.mem_getLast?_eq_getLast h
  exact List.getLast_mem hne

/-- The ascending write loop of `Daemon.fade_screen_brightness`
(lines 401-405) entered with `screen_brightness` already advanced by one
step: `while not (screen_brightness >= raw_target): write; screen_brightness
+= step`.  The `0 < step` guard marks the terminating domain; in the source
`step` on this branch is a positive power of two. -/
def fade_loop_up (sb rt step : ℤ) : List ℤ :=
  if h : sb < rt ∧ 0 < step then sb :: fade_loop_up (sb + step) rt step else []
termination_by (rt - sb).toNat
decreasing_by
  obtain ⟨h1, h2⟩ := h
  omega

/-- The descending write loop of `Daemon.fade_screen_brightness`: `while not
(screen_brightness <= raw_target): write; screen_brightness += step`, with
`step < 0` marking the terminating domain. -/
def fade_loop_down (sb rt step : ℤ) : List ℤ :=
  if h : rt < sb ∧ step < 0 then sb :: fade_loop_down (sb + step) rt step else []
termination_by (sb - rt).toNat
decreasing_by
  obtain ⟨h1, h2⟩ := h
  omega

/-- Model of `Daemon.fade_screen_brightness` (lines 376-406) as the sequence of raw
values written to the screen backlight: `diff = raw_target - current`;
`diff == 0` returns without writing; otherwise the loop writes
`current + step, current + 2*step, ...` while unfinished and finally writes
`raw_target` itself.  `step` is the (possibly doubled) step produced by the
interval loop; in the source its sign matches `diff`. -/
def fade_screen_brightness (current raw_target step : ℤ) : List ℤ :=
  if raw_target - current = 0 then []
  else if 0 < raw_target - current then
    fade_loop_up (current + step) raw_target step ++ [raw_target]
  else
    fade_loop_down (current + step) raw_target step ++ [raw_target]

theorem fade_loop_up_mem (sb rt step : ℤ) :
    ∀ w ∈ fade_loop_up sb rt step, sb ≤ w ∧ w < rt := by
  induction sb, rt, step using fade_loop_up.induct with
  | case1 sb rt step h ih =>
      intro w hw
      rw [fade_loop_up, dif_pos h] at hw
      rcases List.mem_cons.1 hw with rfl | hw'
      · exact ⟨le_refl w, h.1⟩
      · have := ih w hw'
        constructor
        · linarith [h.2, this.1]
        · exact this.2
  | case2 sb rt step h =>
      intro w hw
      rw [fade_loop_up, dif_neg h] at hw
      exact absurd hw (List.not_mem_nil w)

theorem fade_loop_down_mem (sb rt step : ℤ) :
    ∀ w ∈ fade_loop_down sb rt step, w ≤ sb ∧ rt < w := by
  induction sb, rt, step using fade_loop_down.induct with
  | case1 sb rt step h ih =>
      intro w hw
      rw [fade_loop_down, dif_pos h] at hw
      rcases List.mem_cons.1 hw with rfl | hw'
      · exact ⟨le_refl w, h.1⟩
      · have := ih w hw'
        constructor
        · linarith [h.2, this.1]
        · exact this.2
  | case2 sb rt step h =>
      intro w hw
      rw [fade_loop_down, dif_neg h] at hw
      exact absurd hw (List.not_mem_nil w)

theorem fade_loop_up_chain (sb rt step : ℤ) :
    List.Chain' (· < ·) (fade_loop_up sb rt step) := by
  induction sb, rt, step using fade_loop_up.induct with
  | case1 sb rt step h ih =>
      rw [fade_loop_up, dif_pos h]
      refine List.chain'_cons'.2 ⟨?_, ih⟩
      intro y hy
      have hmem : y ∈ fade_loop_up (sb + step) rt step :=
        List.mem_of_mem_head? hy
      have := (fade_loop_up_mem (sb + step) rt step) y hmem
      linarith [h.2, this.1]
  | case2 sb rt step h =>
      rw [fade_loop_up, dif_neg h]
      exact List.chain'_nil

theorem fade_loop_down_chain (sb rt step : ℤ) :
    List.Chain' (fun a b => b < a) (fade_loop_down sb rt step) := by
  induction sb, rt, step using fade_loop_down.induct with
  | case1 sb rt step h ih =>
      rw [fade_loop_down, dif_pos h]
      refine List.chain'_cons'.2 ⟨?_, ih⟩
      intro y hy
      have hmem : y ∈ fade_loop_down (sb + step) rt step :=
        List.mem_of_mem_head? hy
      have := (fade_loop_down_mem (sb + step) rt step) y hmem
      linarith [h.2, this.1]
  | case2 sb rt step h =>
      rw [fade_loop_down, dif_neg h]
      exact List.chain'_nil

theorem fade_up_spec (c rt step : ℤ) (hlt : c < rt) (hstep : 0 < step) :
    (fade_screen_brightness c rt step).getLast? = some rt ∧
    List.Chain' (· < ·) (fade_screen_brightness c rt step) ∧
    ∀ w ∈ fade_screen_brightness c rt step, c < w ∧ w ≤ rt := by
  have hne : ¬ rt - c = 0 := by omega
  have hpos : 0 < rt - c := by omega
  rw [fade_screen_brightness, if_neg hne, if_pos hpos]
  refine ⟨List.getLast?_concat _, ?_, ?_⟩
  · refine List.chain'_append.2
      ⟨fade_loop_up_chain _ _ _, List.chain'_singleton rt, ?_⟩
    intro x hx y hy
    have hx' : x ∈ fade_loop_up (c + step) rt step := mem_of_mem_getLast?' hx
    have hy' : rt = y := by simpa using hy
    rw [← hy']
    exact ((fade_loop_up_mem _ _ _) x hx').2
  · intro w hw
    rcases List.mem_append.1 hw with hw' | hw'
    · have := (fade_loop_up_mem _ _ _) w hw'
      exact ⟨by linarith [this.1], le_of_lt this.2⟩
    · have hw'' : w = rt := by simpa using hw'
      rw [hw'']
      exact ⟨hlt, le_refl rt⟩

theorem fade_down_spec (c rt step : ℤ) (hlt : rt < c) (hstep : step < 0) :
    (fade_screen_brightness c rt step).getLast? = some rt ∧
    List.Chain' (fun a b => b < a) (fade_screen_brightness c rt step) ∧
    ∀ w ∈ fade_screen_brightness c rt step, rt ≤ w ∧ w < c := by
  have hne : ¬ rt - c = 0 := by omega
  have hpos : ¬ 0 < rt - c := by omega
  rw [fade_screen_brightness, if_neg hne, if_neg hpos]
  refine ⟨List.getLast?_concat _, ?_, ?_⟩
  · refine List.chain'_append.2
      ⟨fade_loop_down_chain _ _ _, List.chain'_singleton rt, ?_⟩
    intro x hx y hy
    have hx' : x ∈ fade_loop_down (c + step) rt step := mem_of_mem_getLast?' hx
    have hy' : rt = y := by simpa using hy
    rw [← hy']
    exact ((fade_loop_down_mem _ _ _) x hx').2
  · intro w hw
    rcases List.mem_append.1 hw with hw' | hw'
    · have := (fade_loop_down_mem _ _ _) w hw'
      exact ⟨le_of_lt this.2, by linarith [this.1]⟩
    · have hw'' : w = rt := by simpa using hw'
      rw [hw'']
      exact ⟨le_refl rt, hlt⟩

/-- C3: for every starting raw brightness, every raw target, and every
doubled step `sign(raw_target - current) * 2^k` the interval-adjustment loop
can produce, the sequence of raw values written by the screen fade is
strictly monotone toward `raw_target`, no written value overshoots
`raw_target`, and the final written value is exactly `raw_target`; when the
initial difference is zero, nothing is written. -/
theorem fade_screen_brightness_spec (current raw_target : ℤ) (k : ℕ) :
    (raw_target = current →
      fade_screen_brightness current raw_target
        ((raw_target - current).sign * 2 ^ k) = []) ∧
    (current < raw_target →
      (fade_screen_brightness current raw_target
          ((raw_target - current).sign * 2 ^ k)).getLast? = some raw_target ∧
      List.Chain' (· < ·)
        (fade_screen_brightness current raw_target
          ((raw_target - current).sign * 2 ^ k)) ∧
      ∀ w ∈ fade_screen_brightness current raw_target
          ((raw_target - current).sign * 2 ^ k),
        current < w ∧ w ≤ raw_target) ∧
    (raw_target < current →
      (fade_screen_brightness current raw_target
          ((raw_target - current).sign * 2 ^ k)).getLast? = some raw_target ∧
      List.Chain' (fun a b => b < a)
        (fade_screen_brightness current raw_target
          ((raw_target - current).sign * 2 ^ k)) ∧
      ∀ w ∈ fade_screen_brightness current raw_target
          ((raw_target - current).sign * 2 ^ k),
        raw_target ≤ w ∧ w < current) := by
  refine ⟨?_, ?_, ?_⟩
  · intro heq
    rw [fade_screen_brightness, if_pos (by omega)]
  · intro hlt
    have hsign : (raw_target - current).sign = 1 :=
      Int.sign_eq_one_iff_pos.2 (by omega)
    have hstep : 0 < (raw_target - current).sign * 2 ^ k := by
      rw [hsign]
      positivity
    exact fade_up_spec current raw_target _ hlt hstep
  · intro hlt
    have hsign : (raw_target - current).sign = -1 :=
      Int.sign_eq_neg_one_iff_neg.2 (by omega)
    have hstep : (raw_target - current).sign * 2 ^ k < 0 := by
      rw [hsign]
      have : (0 : ℤ) < 2 ^ k := by positivity
      omega
    exact fade_down_spec current raw_target _ hlt hstep

theorem fade_screen_brightness_spec_w :
    (0 : ℤ) < 5 ∧
      ((fade_screen_brightness 0 5 (((5 : ℤ) - 0).sign * 2 ^ 1)).getLast? =
          some 5 ∧
        List.Chain' (· < ·)
          (fade_screen_brightness 0 5 (((5 : ℤ) - 0).sign * 2 ^ 1)) ∧
        ∀ w ∈ fade_screen_brightness 0 5 (((5 : ℤ) - 0).sign * 2 ^ 1),
          (0 : ℤ) < w ∧ w ≤ 5) :=
  ⟨by omega, (fade_screen_brightness_spec 0 5 1).2.1 (by omega)⟩

/-- Python `int(x)` applied to a float: truncation toward zero. -/
def pytrunc (q : ℚ) : ℤ := q.num.tdiv (q.den : ℤ)

/-- The `raw_target` computed by `Daemon.fade_screen_brightness`
(lines 377-378): `int(conf.screen_brightness_max * float(target) / 100.0)` —
with no flooring of `target` at `screen_brightness_min`. -/
def raw_target_of (screen_brightness_max : ℤ) (target : ℚ) : ℤ :=
  pytrunc ((screen_brightness_max : ℚ) * target / 100)

/-- The `raw_target` computed by the legacy variant
`AcpiAlsDaemon.slowly_set_screen_brightness` (lines 271-274), which first
floors the target percent at `screen_brightness_min`. -/
def slowly_raw_target_of (screen_brightness_max : ℤ) (smin target : ℚ) : ℤ :=
  pytrunc ((screen_brightness_max : ℚ) *
    (if target < smin then smin else target) / 100)

/-- C7 counterexample: with `screen_brightness_max = 100` and
`screen_brightness_min = 5`, a fade to target percent `0` computes raw
target `0` in `fade_screen_brightness`, not the claimed
`trunc(max_raw * max(target, min) / 100) = 5`: solard's fade applies no
minimum floor. -/
theorem raw_target_no_floor_cex :
    raw_target_of 100 0 = 0 ∧
    pytrunc ((100 : ℚ) * max (0 : ℚ) 5 / 100) = 5 ∧
    raw_target_of 100 0 ≠ pytrunc ((100 : ℚ) * max (0 : ℚ) 5 / 100) := by
  have h1 : raw_target_of 100 0 = 0 := by
    rw [raw_target_of, pytrunc]
    norm_num
  have h2 : pytrunc ((100 : ℚ) * max (0 : ℚ) 5 / 100) = 5 := by
    rw [pytrunc]
    norm_num
  exact ⟨h1, h2, by rw [h1, h2]; norm_num⟩

/-- C7 (amended): only the legacy variant's screen fade
(`slowly_set_screen_brightness`) floors the target at the configured
minimum percent before computing the raw target, which then equals
`trunc(max_raw * max(target, min) / 100)`; solard's `fade_screen_brightness`
computes `trunc(max_raw * target / 100)` with no floor, and the two agree
exactly when the incoming target is already at least the minimum (which
`get_ambient_light`'s own floor guarantees for ambient-derived targets). -/
theorem slowly_raw_target_spec (m : ℤ) (smin t : ℚ) :
    slowly_raw_target_of m smin t = pytrunc ((m : ℚ) * max t smin / 100) ∧
    (smin ≤ t → raw_target_of m t = slowly_raw_target_of m smin t) := by
  constructor
  · rw [slowly_raw_target_of]
    have hif : (if t < smin then smin else t) = max t smin := by
      by_cases hc : t < smin
      · rw [if_pos hc, max_eq_right (le_of_lt hc)]
      · rw [if_neg hc, max_eq_left (not_lt.1 hc)]
    rw [hif]
  · intro h
    rw [raw_target_of, slowly_raw_target_of, if_neg (not_lt.2 h)]

theorem slowly_raw_target_spec_w :
    (5 : ℚ) ≤ 7 ∧ raw_target_of 100 7 = slowly_raw_target_of 100 5 7 :=
  ⟨by norm_num, (slowly_raw_target_spec 100 5 7).2 (by norm_num)⟩

/-- The endpoint `targets[-1]` of the ramp chosen by
`Daemon.fade_keyboard_brightness` — the level the percent quantizes to:
level 3 when `percent < keyboard_backlight_threshold` ("enabled"), level 0
otherwise. -/
def quantized_kbd_level (threshold percent : ℚ) : ℤ :=
  if percent < threshold then 3 else 0

/-- Model of `Daemon.fade_keyboard_brightness` (lines 436-450) as the list of levels
written: `targets = range(1, 4)` when `percent <
keyboard_backlight_threshold` else `range(2, -1, -1)`; if `targets[-1] ==
last_keyboard_brightness` return without writing, otherwise write every
level of `targets` in order. -/
def fade_keyboard_brightness (threshold percent : ℚ) (last : ℤ) : List ℤ :=
  let targets : List ℤ := if percent < threshold then [1, 2, 3] else [2, 1, 0]
  if targets.getLastD 0 = last then [] else targets

/-- C8 counterexample: with the default threshold 10, current level 1 and
percent 0 (quantizing to level 3 ≠ 1), the fade writes `[1, 2, 3]`: its
first write is level 1, which is the current level itself, not a level
adjacent to it. -/
theorem fade_keyboard_brightness_cex :
    fade_keyboard_brightness 10 0 1 = [1, 2, 3] ∧
    quantized_kbd_level 10 0 = 3 ∧ (3 : ℤ) ≠ 1 ∧
    (fade_keyboard_brightness 10 0 1).head? = some 1 ∧
    |(1 : ℤ) - 1| ≠ 1 := by
  refine ⟨by decide, by decide, by decide, by decide, by decide⟩

/-- C8 (amended): the keyboard fade ignores the current level when choosing
its path: it writes the fixed sequence `[1, 2, 3]` (percent below
threshold) or `[2, 1, 0]` (otherwise), whose consecutive entries differ by
exactly one level and whose final entry is the quantized target level, and
it writes nothing precisely when the quantized target level equals the
current level.  The first write is always level 1 (ascending) or level 2
(descending), independent of the current level. -/
theorem fade_keyboard_brightness_spec (threshold percent : ℚ) (last : ℤ) :
    (fade_keyboard_brightness threshold percent last = [] ↔
      quantized_kbd_level threshold percent = last) ∧
    (fade_keyboard_brightness threshold percent last ≠ [] →
      (fade_keyboard_brightness threshold percent last).getLast? =
        some (quantized_kbd_level threshold percent) ∧
      List.Chain' (fun a b => b = a + 1 ∨ b = a - 1)
        (fade_keyboard_brightness threshold percent last) ∧
      (fade_keyboard_brightness threshold percent last).head? =
        some (if percent < threshold then 1 else 2)) := by
  rw [fade_keyboard_brightness, quantized_kbd_level]
  by_cases hc : percent < threshold
  · simp only [if_pos hc]
    by_cases h3 : (3 : ℤ) = last
    · rw [if_pos (by rw [← h3]; decide)]
      exact ⟨by simp [h3], fun hne => absurd rfl hne⟩
    · rw [if_neg (by simpa using h3)]
      refine ⟨by simp [h3], fun _ => ⟨by decide, ?_, by decide⟩⟩
      exact List.chain'_cons.2 ⟨Or.inl rfl,
        List.chain'_cons.2 ⟨Or.inl rfl, List.chain'_singleton _⟩⟩
  · simp only [if_neg hc]
    by_cases h0 : (0 : ℤ) = last
    · rw [if_pos (by rw [← h0]; decide)]
      exact ⟨by simp [h0], fun hne => absurd rfl hne⟩
    · rw [if_neg (by simpa using h0)]
      refine ⟨by simp [h0], fun _ => ⟨by decide, ?_, by decide⟩⟩
      exact List.chain'_cons.2 ⟨Or.inr rfl,
        List.chain'_cons.2 ⟨Or.inr rfl, List.chain'_singleton _⟩⟩

theorem fade_keyboard_brightness_spec_w :
    fade_keyboard_brightness 10 50 1 ≠ [] ∧
      ((fade_keyboard_brightness 10 50 1).getLast? =
          some (quantized_kbd_level 10 50) ∧
        List.Chain' (fun a b => b = a + 1 ∨ b = a - 1)
          (fade_keyboard_brightness 10 50 1) ∧
        (fade_keyboard_brightness 10 50 1).head? =
          some (if (50 : ℚ) < 10 then 1 else 2)) :=
  ⟨by decide, (fade_keyboard_brightness_spec 10 50 1).2 (by decide)⟩

/-- The daemon attributes touched by the keyboard branch of the
outside-change detector: the last known keyboard brightness
(`ObservedHardwareBrightness`), the shutdown event, and the published
re-assert target. -/
structure DetectorState where
  last_keyboard_brightness : ℤ
  shutdown : Bool
  pending : Option (ℚ × ℚ)
  ambient_light_last : ℚ
  deriving Repr, DecidableEq

/-- Model of `Daemon.something_have_changed_outside` (lines 353-360): under
`--stop-on-outside-change` set the shutdown event (terminate policy);
otherwise re-assert the last committed target by publishing
`brightnesses_set(ambient_light_last, ambient_light_last)`. -/
def something_have_changed_outside (stop_on_outside_change : Bool)
    (s : DetectorState) : DetectorState :=
  if stop_on_outside_change then { s with shutdown := true }
  else { s with pending := some (s.ambient_light_last, s.ambient_light_last) }

/-- Model of `Daemon.verify_if_something_keyboard_changed_outside` (lines 362-367):
read the live keyboard brightness, compare with the last known value; on
divergence update the last known value first, then signal.  The first
component records whether the outside-change condition was signalled by
this check. -/
def verify_if_something_keyboard_changed_outside (stop : Bool) (live : ℤ)
    (s : DetectorState) : Bool × DetectorState :=
  if live ≠ s.last_keyboard_brightness then
    (true, something_have_changed_outside stop
      { s with last_keyboard_brightness := live })
  else (false, s)

/-- C5: whenever the live hardware value differs from the last known value,
the detector check signals the outside-change condition and unconditionally
updates the last known value to the live value — under the terminate policy
and under the re-assert policy alike — so that an immediately following
check against unchanged hardware signals nothing and changes nothing; and
when live equals last known, the check signals nothing and leaves the state
untouched. -/
theorem verify_keyboard_outside_spec (stop : Bool) (live : ℤ)
    (s : DetectorState) :
    (live ≠ s.last_keyboard_brightness →
      (verify_if_something_keyboard_changed_outside stop live s).1 = true ∧
      (verify_if_something_keyboard_changed_outside stop live
        s).2.last_keyboard_brightness = live ∧
      verify_if_something_keyboard_changed_outside stop live
          ((verify_if_something_keyboard_changed_outside stop live s).2) =
        (false, (verify_if_something_keyboard_changed_outside stop live s).2)) ∧
    (live = s.last_keyboard_brightness →
      verify_if_something_keyboard_changed_outside stop live s = (false, s)) := by
  constructor
  · intro hne
    have hupd : (verify_if_something_keyboard_changed_outside stop live
        s).2.last_keyboard_brightness = live := by
      rw [verify_if_something_keyboard_changed_outside, if_pos hne,
        something_have_changed_outside]
      by_cases hstop : stop = true
      · rw [if_pos hstop]
      · rw [if_neg hstop]
    refine ⟨by rw [verify_if_something_keyboard_changed_outside, if_pos hne],
      hupd, ?_⟩
    rw [verify_if_something_keyboard_changed_outside,
      if_neg (by simp [hupd])]
  · intro heq
    rw [verify_if_something_keyboard_changed_outside, if_neg (by simp [heq])]

theorem verify_keyboard_outside_spec_w :
    (2 : ℤ) ≠ (⟨1, false, none, 30⟩ : DetectorState).last_keyboard_brightness ∧
      ((verify_if_something_keyboard_changed_outside false 2
          ⟨1, false, none, 30⟩).1 = true ∧
        (verify_if_something_keyboard_changed_outside false 2
          ⟨1, false, none, 30⟩).2.last_keyboard_brightness = 2 ∧
        verify_if_something_keyboard_changed_outside false 2
            ((verify_if_something_keyboard_changed_outside false 2
              ⟨1, false, none, 30⟩).2) =
          (false, (verify_if_something_keyboard_changed_outside false 2
            ⟨1, false, none, 30⟩).2)) :=
  ⟨by decide,
    (verify_keyboard_outside_spec false 2 ⟨1, false, none, 30⟩).1 (by decide)⟩

/-- The Python exception raised when a local variable is used before
assignment. -/
inductive PyErr where
  | unboundLocal
  deriving Repr, DecidableEq

/-- Outcome of one iteration of `LoopThread._loop` (lines 123-129). -/
inductive TickOutcome where
  | completed
  | caughtRetry
  deriving Repr, DecidableEq

/-- Model of `Daemon.get_screen_brightness` (lines 338-347): a successful sysfs read
binds `value` and returns it; the `except IOError` branch (lines 343-345)
only logs, leaving the local `value` unassigned, so the subsequent use of
`value` on line 346 raises `UnboundLocalError` — the error branch can never
reach the `return` with a defined value. -/
def get_screen_brightness (read : Option ℤ) : Except PyErr ℤ :=
  match read with
  | some value => Except.ok value
  | none => Except.error PyErr.unboundLocal

/-- Model of `Daemon.get_keyboard_brightness` (lines 420-434): returns 0 immediately
when no keyboard backlight is configured; otherwise it has the same shape
as `get_screen_brightness` — the `except IOError` branch leaves `value`
unassigned and the use on line 433 raises `UnboundLocalError`. -/
def get_keyboard_brightness (keyboard_backlight : Bool) (read : Option ℤ) :
    Except PyErr ℤ :=
  if keyboard_backlight then
    match read with
    | some value => Except.ok value
    | none => Except.error PyErr.unboundLocal
  else Except.ok 0

/-- One iteration of `LoopThread._loop` (lines 123-129): the method runs
under a bare `except Exception` that logs and lets `_shutdown.wait` schedule
the next tick, so an exception escaping the method never kills the loop. -/
def loop_tick (m : Except PyErr ℤ) : TickOutcome :=
  match m with
  | Except.ok _ => TickOutcome.completed
  | Except.error _ => TickOutcome.caughtRetry

/-- C9: when the sysfs read fails with an I/O error,
`get_screen_brightness` and `get_keyboard_brightness` (with a configured
keyboard backlight) return no value at all: the call raises
(`UnboundLocalError`, since the error branch leaves the result variable
unassigned), never yielding a stale or default value (`toOption = none`),
and the surrounding loop's catch-all absorbs the exception so the next tick
retries. -/
theorem get_brightness_read_failure :
    get_screen_brightness none = Except.error PyErr.unboundLocal ∧
    (get_screen_brightness none).toOption = none ∧
    get_keyboard_brightness true none = Except.error PyErr.unboundLocal ∧
    (get_keyboard_brightness true none).toOption = none ∧
    loop_tick (get_screen_brightness none) = TickOutcome.caughtRetry ∧
    loop_tick (get_keyboard_brightness true none) = TickOutcome.caughtRetry :=
  ⟨rfl, rfl, rfl, rfl, rfl, rfl⟩

end Solard
